import Mathlib

/-!
Shallow embedding of the fixed-capacity memory pool allocator in
`src/memory_manager.c`.

The C code keeps a singly linked list of `MemBlock` records
(`block_size`, `is_available`, `next_block`, `data_ptr`) partitioning a
contiguous arena.  We embed the linked list as a `List MemBlock` in list
order (head = `pool_head`), machine pointers as natural-number addresses
(`NULL` is modelled by `Option.none`), arena memory as a function
`Nat → Nat` from addresses to byte values, and the possible failure of
`malloc` for split metadata as an explicit `metaOk : Bool` parameter
(`true` = the metadata allocation succeeds).  Warnings printed with
`fprintf(stderr, ...)` are modelled as explicit result tags.
-/

/-- One node of the C `MemBlock` linked list (`next_block` is implicit in
the list order). -/
structure MemBlock where
  block_size : Nat
  is_available : Bool
  data_ptr : Nat
  deriving Repr, DecidableEq

/-- `mem_init(pool_size)`: one descriptor covering the whole arena, free.
`base` is the address `malloc` returned for the pool. -/
def mem_init (pool_size base : Nat) : List MemBlock :=
  [{ block_size := pool_size, is_available := true, data_ptr := base }]

/-- `mem_alloc(size)`: first-fit search; split when the block is strictly
larger, in-place mark when exact.  Returns the allocated `data_ptr`
(`none` = `NULL`) together with the updated list.  `metaOk = false` models
`malloc(sizeof(MemBlock))` failing inside the split branch, where the C
code returns `NULL` at once, leaving the list untouched. -/
def mem_alloc (metaOk : Bool) (size : Nat) : List MemBlock → Option Nat × List MemBlock
  | [] => (none, [])
  | current :: rest =>
    if current.is_available && decide (size ≤ current.block_size) then
      if size < current.block_size then
        if metaOk then
          (some current.data_ptr,
            { current with block_size := size, is_available := false } ::
              { block_size := current.block_size - size, is_available := true,
                data_ptr := current.data_ptr + size } :: rest)
        else
          (none, current :: rest)
      else
        (some current.data_ptr, { current with is_available := false } :: rest)
    else
      let r := mem_alloc metaOk size rest
      (r.1, current :: r.2)

/-- Outcome tag of `mem_free` (the three `fprintf` warnings, or success). -/
inductive FreeResult where
  | freedOk
  | warnNull
  | warnAlreadyFree
  | warnNotFound
  deriving Repr, DecidableEq

/-- The forward-coalescing `while` loop of `mem_free`: while the next node
exists and is available, absorb its size into the current node and unlink
it. -/
def coalesceForward (b : MemBlock) : List MemBlock → MemBlock × List MemBlock
  | [] => (b, [])
  | nb :: rest =>
    if nb.is_available then
      coalesceForward { b with block_size := b.block_size + nb.block_size } rest
    else
      (b, nb :: rest)

/-- The search loop of `mem_free` for a non-`NULL` pointer `p`. -/
def freeAt (p : Nat) : List MemBlock → FreeResult × List MemBlock
  | [] => (.warnNotFound, [])
  | current :: rest =>
    if current.data_ptr = p then
      if current.is_available then
        (.warnAlreadyFree, current :: rest)
      else
        let c := coalesceForward { current with is_available := true } rest
        (.freedOk, c.1 :: c.2)
    else
      let r := freeAt p rest
      (r.1, current :: r.2)

/-- `mem_free(ptr)`: `NULL` warns and returns, otherwise search. -/
def mem_free : Option Nat → List MemBlock → FreeResult × List MemBlock
  | none, bs => (.warnNull, bs)
  | some p, bs => freeAt p bs

/-- The read-only search loop of `mem_resize`. -/
def findBlock (p : Nat) : List MemBlock → Option MemBlock
  | [] => none
  | b :: bs => if b.data_ptr = p then some b else findBlock p bs

/-- `memcpy(dst, src, len)` on the byte-addressed memory model. -/
def memcpy (dst src len : Nat) (m : Nat → Nat) : Nat → Nat :=
  fun a => if dst ≤ a ∧ a < dst + len then m (src + (a - dst)) else m a

/-- Full observable outcome of `mem_resize`: returned pointer, descriptor
list, memory contents, and whether the not-found warning was printed. -/
structure ResizeOut where
  ret : Option Nat
  blocks : List MemBlock
  mem : Nat → Nat
  warned : Bool

/-- `mem_resize(ptr, size)`: `NULL` delegates to `mem_alloc`; a found
block that is already large enough is returned unchanged; an undersized
block triggers alloc + `memcpy` of the OLD block length + free of the old
pointer; a pointer not in the list warns and returns `NULL`. -/
def mem_resize (metaOk : Bool) (ptr : Option Nat) (size : Nat)
    (bs : List MemBlock) (m : Nat → Nat) : ResizeOut :=
  match ptr with
  | none =>
      let a := mem_alloc metaOk size bs
      ⟨a.1, a.2, m, false⟩
  | some p =>
      match findBlock p bs with
      | some block =>
          if size ≤ block.block_size then
            ⟨some p, bs, m, false⟩
          else
            let a := mem_alloc metaOk size bs
            match a.1 with
            | some new_ptr =>
                let m2 := memcpy new_ptr p block.block_size m
                let f := mem_free (some p) a.2
                ⟨some new_ptr, f.2, m2, false⟩
            | none => ⟨none, a.2, m, false⟩
      | none => ⟨none, bs, m, true⟩

/-- `coversFrom a e bs`: the descriptors in `bs`, in list order, tile the
address range `[a, e)` exactly — each starts where the previous ended,
each has positive size, and the last ends at `e`.  This is the
partition invariant of the spec. -/
def coversFrom (a e : Nat) : List MemBlock → Bool
  | [] => a == e
  | b :: bs =>
      (b.data_ptr == a) && decide (0 < b.block_size) && coversFrom (a + b.block_size) e bs

/-- The pool invariant: the list tiles `[base, base + total)`. -/
def poolInv (base total : Nat) (bs : List MemBlock) : Bool :=
  coversFrom base (base + total) bs

/-- No two adjacent descriptors are both available. -/
def noAdjFree : List MemBlock → Bool
  | b1 :: b2 :: rest => (!(b1.is_available && b2.is_available)) && noAdjFree (b2 :: rest)
  | _ => true

/-- The first descriptor with `data_ptr = p` is not followed by an
available descriptor (vacuously true if absent or last). -/
def succNotFreeAt (p : Nat) : List MemBlock → Bool
  | b :: nb :: rest =>
      if b.data_ptr = p then !nb.is_available else succNotFreeAt p (nb :: rest)
  | _ => true

/-- One public mutating call, with its oracle inputs. -/
inductive PoolOp where
  | alloc (metaOk : Bool) (n : Nat)
  | free (p : Option Nat)
  | resize (metaOk : Bool) (p : Option Nat) (n : Nat)
  deriving Repr, DecidableEq

/-- The spec's contract that requested sizes are positive. -/
def opSizePos : PoolOp → Bool
  | .alloc _ n => decide (0 < n)
  | .free _ => true
  | .resize _ _ n => decide (0 < n)

/-- Run a sequence of public calls on (descriptor list, memory). -/
def runOps : List PoolOp → List MemBlock × (Nat → Nat) → List MemBlock × (Nat → Nat)
  | [], s => s
  | op :: ops, s =>
      match op with
      | .alloc mOk n => runOps ops ((mem_alloc mOk n s.1).2, s.2)
      | .free p => runOps ops ((mem_free p s.1).2, s.2)
      | .resize mOk p n =>
          let r := mem_resize mOk p n s.1 s.2
          runOps ops (r.blocks, r.mem)

/-! ### Helper lemmas -/

theorem mem_alloc_none_eq (mOk : Bool) (n : Nat) :
    ∀ bs : List MemBlock, (mem_alloc mOk n bs).1 = none → (mem_alloc mOk n bs).2 = bs := by
  intro bs
  induction bs with
  | nil => intro _; rfl
  | cons current rest ih =>
    simp only [mem_alloc]
    split
    · split
      · split
        · intro h; simp at h
        · intro _; rfl
      · intro h; simp at h
    · intro h
      simp only at h ⊢
      rw [ih h]

theorem coversFrom_alloc (mOk : Bool) (n : Nat) (hn : 0 < n) :
    ∀ (bs : List MemBlock) (a e : Nat), coversFrom a e bs = true →
      coversFrom a e (mem_alloc mOk n bs).2 = true := by
  intro bs
  induction bs with
  | nil => intro a e h; exact h
  | cons current rest ih =>
    intro a e h
    simp only [coversFrom, Bool.and_eq_true, beq_iff_eq, decide_eq_true_eq] at h
    obtain ⟨⟨hda, hsz⟩, hrest⟩ := h
    simp only [mem_alloc]
    split
    · split
      · split
        · simp only [coversFrom, Bool.and_eq_true, beq_iff_eq, decide_eq_true_eq]
          refine ⟨⟨hda, hn⟩, ⟨⟨by omega, by omega⟩, ?_⟩⟩
          have : a + n + (current.block_size - n) = a + current.block_size := by omega
          rwa [this]
        · simp only [coversFrom, Bool.and_eq_true, beq_iff_eq, decide_eq_true_eq]
          exact ⟨⟨hda, hsz⟩, hrest⟩
      · simp only [coversFrom, Bool.and_eq_true, beq_iff_eq, decide_eq_true_eq]
        exact ⟨⟨hda, hsz⟩, hrest⟩
    · simp only [coversFrom, Bool.and_eq_true, beq_iff_eq, decide_eq_true_eq]
      exact ⟨⟨hda, hsz⟩, ih _ _ hrest⟩

theorem coversFrom_chain :
    ∀ (bs : List MemBlock) (a e : Nat), coversFrom a e bs = true →
      List.Chain' (· < ·) (bs.map (·.data_ptr)) := by
  intro bs
  induction bs with
  | nil => intro a e _; simp
  | cons b1 rest ih =>
    intro a e h
    simp only [coversFrom, Bool.and_eq_true, beq_iff_eq, decide_eq_true_eq] at h
    obtain ⟨⟨hda, hsz⟩, hrest⟩ := h
    cases rest with
    | nil => simp
    | cons b2 rest2 =>
      have h2 := hrest
      simp only [coversFrom, Bool.and_eq_true, beq_iff_eq, decide_eq_true_eq] at h2
      obtain ⟨⟨hda2, _⟩, _⟩ := h2
      simp only [List.map_cons, List.chain'_cons]
      exact ⟨by omega, ih _ _ hrest⟩

theorem coversFrom_sum :
    ∀ (bs : List MemBlock) (a e : Nat), coversFrom a e bs = true →
      a + (bs.map (·.block_size)).sum = e := by
  intro bs
  induction bs with
  | nil =>
    intro a e h
    simp only [coversFrom, beq_iff_eq] at h
    simpa using h
  | cons b rest ih =>
    intro a e h
    simp only [coversFrom, Bool.and_eq_true, beq_iff_eq, decide_eq_true_eq] at h
    obtain ⟨⟨_, _⟩, hrest⟩ := h
    have := ih _ _ hrest
    simp only [List.map_cons, List.sum_cons]
    omega

theorem coalesce_fst_data_ptr : ∀ (rest : List MemBlock) (b : MemBlock),
    ((coalesceForward b rest).1).data_ptr = b.data_ptr := by
  intro rest
  induction rest with
  | nil => intro b; rfl
  | cons nb rest2 ih =>
    intro b
    simp only [coalesceForward]
    split
    · exact ih _
    · rfl

theorem coalesce_fst_avail : ∀ (rest : List MemBlock) (b : MemBlock),
    ((coalesceForward b rest).1).is_available = b.is_available := by
  intro rest
  induction rest with
  | nil => intro b; rfl
  | cons nb rest2 ih =>
    intro b
    simp only [coalesceForward]
    split
    · exact ih _
    · rfl

theorem coalesce_snd_head : ∀ (rest : List MemBlock) (b nb : MemBlock),
    ((coalesceForward b rest).2).head? = some nb → nb.is_available = false := by
  intro rest
  induction rest with
  | nil => intro b nb h; simp [coalesceForward] at h
  | cons nb2 rest2 ih =>
    intro b nb
    simp only [coalesceForward]
    split
    · exact ih _ nb
    · intro h
      simp only [List.head?_cons, Option.some.injEq] at h
      subst h
      simp_all

theorem coalesce_spec : ∀ (frees rest2 : List MemBlock) (b : MemBlock),
    (∀ x ∈ frees, x.is_available = true) →
    (∀ nb, rest2.head? = some nb → nb.is_available = false) →
    coalesceForward b (frees ++ rest2) =
      ({ b with block_size := b.block_size + (frees.map (·.block_size)).sum }, rest2) := by
  intro frees
  induction frees with
  | nil =>
    intro rest2 b _ hstop
    cases rest2 with
    | nil => simp [coalesceForward]
    | cons nb r2 =>
      have hnb : nb.is_available = false := hstop nb rfl
      simp [coalesceForward, hnb]
  | cons f fs ih =>
    intro rest2 b hfrees hstop
    have hf : f.is_available = true := hfrees f (by simp)
    simp only [List.cons_append, coalesceForward, hf, if_true, List.append_eq]
    rw [ih rest2 _ (fun x hx => hfrees x (by simp [hx])) hstop]
    simp [Nat.add_assoc]

theorem coversFrom_coalesce : ∀ (rest : List MemBlock) (b : MemBlock) (a e : Nat),
    b.data_ptr = a → 0 < b.block_size → coversFrom (a + b.block_size) e rest = true →
    coversFrom a e ((coalesceForward b rest).1 :: (coalesceForward b rest).2) = true := by
  intro rest
  induction rest with
  | nil =>
    intro b a e hd hsz hc
    simp only [coversFrom, beq_iff_eq] at hc
    simp [coalesceForward, coversFrom, hd, hsz, hc]
  | cons nb rest2 ih =>
    intro b a e hd hsz hc
    have hc' := hc
    simp only [coversFrom, Bool.and_eq_true, beq_iff_eq, decide_eq_true_eq] at hc'
    obtain ⟨⟨hnd, hnsz⟩, hrest⟩ := hc'
    by_cases hav : nb.is_available = true
    · simp only [coalesceForward, hav, if_true]
      apply ih
      · exact hd
      · simp; omega
      · have h1 : a + MemBlock.block_size { b with block_size := b.block_size + nb.block_size }
            = a + b.block_size + nb.block_size := by simp; omega
        rw [h1]
        exact hrest
    · have hav' : nb.is_available = false := by simpa using hav
      have hcf : coalesceForward b (nb :: rest2) = (b, nb :: rest2) := by
        simp [coalesceForward, hav']
      rw [hcf]
      simp only [coversFrom, Bool.and_eq_true, beq_iff_eq, decide_eq_true_eq]
      exact ⟨⟨hd, hsz⟩, ⟨⟨hnd, hnsz⟩, hrest⟩⟩

theorem freeAt_found : ∀ (l1 : List MemBlock) (cur : MemBlock) (rest : List MemBlock) (p : Nat),
    (∀ x ∈ l1, x.data_ptr ≠ p) → cur.data_ptr = p → cur.is_available = false →
    freeAt p (l1 ++ cur :: rest) =
      (FreeResult.freedOk,
        l1 ++ (coalesceForward { cur with is_available := true } rest).1 ::
              (coalesceForward { cur with is_available := true } rest).2) := by
  intro l1
  induction l1 with
  | nil =>
    intro cur rest p _ hp hused
    simp only [List.nil_append, freeAt]
    rw [if_pos hp, if_neg (by simp [hused])]
  | cons x l1' ih =>
    intro cur rest p hskip hp hused
    have hx : x.data_ptr ≠ p := hskip x (by simp)
    simp only [List.cons_append, freeAt, List.append_eq]
    rw [if_neg hx, ih cur rest p (fun y hy => hskip y (by simp [hy])) hp hused]

theorem freeAt_notFound : ∀ (bs : List MemBlock) (p : Nat),
    (∀ x ∈ bs, x.data_ptr ≠ p) → freeAt p bs = (FreeResult.warnNotFound, bs) := by
  intro bs
  induction bs with
  | nil => intro p _; rfl
  | cons x rest ih =>
    intro p hskip
    have hx : x.data_ptr ≠ p := hskip x (by simp)
    simp only [freeAt]
    rw [if_neg hx, ih p (fun y hy => hskip y (by simp [hy]))]

theorem freeAt_alreadyFree :
    ∀ (l1 : List MemBlock) (cur : MemBlock) (rest : List MemBlock) (p : Nat),
    (∀ x ∈ l1, x.data_ptr ≠ p) → cur.data_ptr = p → cur.is_available = true →
    freeAt p (l1 ++ cur :: rest) = (FreeResult.warnAlreadyFree, l1 ++ cur :: rest) := by
  intro l1
  induction l1 with
  | nil =>
    intro cur rest p _ hp hav
    simp only [List.nil_append, freeAt]
    rw [if_pos hp, if_pos hav]
  | cons x l1' ih =>
    intro cur rest p hskip hp hav
    have hx : x.data_ptr ≠ p := hskip x (by simp)
    simp only [List.cons_append, freeAt, List.append_eq]
    rw [if_neg hx, ih cur rest p (fun y hy => hskip y (by simp [hy])) hp hav]

theorem coversFrom_freeAt : ∀ (bs : List MemBlock) (p a e : Nat),
    coversFrom a e bs = true → coversFrom a e (freeAt p bs).2 = true := by
  intro bs
  induction bs with
  | nil => intro p a e h; exact h
  | cons current rest ih =>
    intro p a e h
    have h' := h
    simp only [coversFrom, Bool.and_eq_true, beq_iff_eq, decide_eq_true_eq] at h'
    obtain ⟨⟨hda, hsz⟩, hrest⟩ := h'
    simp only [freeAt]
    split
    · split
      · exact h
      · exact coversFrom_coalesce rest { current with is_available := true } a e hda hsz hrest
    · simp only [coversFrom, Bool.and_eq_true, beq_iff_eq, decide_eq_true_eq]
      exact ⟨⟨hda, hsz⟩, ih p _ e hrest⟩

theorem coversFrom_free (pOpt : Option Nat) (bs : List MemBlock) (a e : Nat)
    (h : coversFrom a e bs = true) : coversFrom a e (mem_free pOpt bs).2 = true := by
  cases pOpt with
  | none => exact h
  | some p => exact coversFrom_freeAt bs p a e h

theorem coversFrom_resize (mOk : Bool) (pOpt : Option Nat) (n : Nat) (hn : 0 < n)
    (bs : List MemBlock) (m : Nat → Nat) (a e : Nat) (h : coversFrom a e bs = true) :
    coversFrom a e (mem_resize mOk pOpt n bs m).blocks = true := by
  cases pOpt with
  | none => simpa [mem_resize] using coversFrom_alloc mOk n hn bs a e h
  | some p =>
    simp only [mem_resize]
    cases hfind : findBlock p bs with
    | none => simpa using h
    | some block =>
      simp only
      split
      · simpa using h
      · cases halloc : (mem_alloc mOk n bs).1 with
        | some np =>
          simp only [mem_free]
          exact coversFrom_freeAt _ p a e (coversFrom_alloc mOk n hn bs a e h)
        | none =>
          simp only
          rw [mem_alloc_none_eq mOk n bs halloc]
          exact h

theorem freeAt_double : ∀ (bs : List MemBlock) (p : Nat) (bs' : List MemBlock),
    freeAt p bs = (FreeResult.freedOk, bs') →
    freeAt p bs' = (FreeResult.warnAlreadyFree, bs') := by
  intro bs
  induction bs with
  | nil => intro p bs' h; simp [freeAt] at h
  | cons current rest ih =>
    intro p bs' h
    simp only [freeAt] at h
    by_cases hp : current.data_ptr = p
    · rw [if_pos hp] at h
      by_cases hav : current.is_available = true
      · rw [if_pos hav] at h; simp at h
      · rw [if_neg hav] at h
        simp only [Prod.mk.injEq] at h
        obtain ⟨-, hbs'⟩ := h
        subst hbs'
        have hd : (coalesceForward { current with is_available := true } rest).1.data_ptr = p := by
          rw [coalesce_fst_data_ptr]; exact hp
        have ha :
            (coalesceForward { current with is_available := true } rest).1.is_available = true := by
          rw [coalesce_fst_avail]
        simp only [freeAt]
        rw [if_pos hd, if_pos ha]
    · rw [if_neg hp] at h
      simp only [Prod.mk.injEq] at h
      obtain ⟨h1, hbs'⟩ := h
      subst hbs'
      have hrest : freeAt p rest = (FreeResult.freedOk, (freeAt p rest).2) := by
        rw [← h1]
      have h2 := ih p (freeAt p rest).2 hrest
      simp only [freeAt]
      rw [if_neg hp, h2]

theorem freeAt_succNotFree : ∀ (bs : List MemBlock) (p : Nat),
    (freeAt p bs).1 = FreeResult.freedOk → succNotFreeAt p (freeAt p bs).2 = true := by
  intro bs
  induction bs with
  | nil => intro p h; simp [freeAt] at h
  | cons current rest ih =>
    intro p h
    simp only [freeAt] at h ⊢
    by_cases hp : current.data_ptr = p
    · rw [if_pos hp] at h ⊢
      by_cases hav : current.is_available = true
      · rw [if_pos hav] at h; simp at h
      · rw [if_neg hav] at h ⊢
        simp only
        cases hc2 : (coalesceForward { current with is_available := true } rest).2 with
        | nil => simp [succNotFreeAt]
        | cons nb r2 =>
          have hnb : nb.is_available = false :=
            coalesce_snd_head rest _ nb (by rw [hc2]; rfl)
          have hd :
              (coalesceForward { current with is_available := true } rest).1.data_ptr = p := by
            rw [coalesce_fst_data_ptr]; exact hp
          simp [succNotFreeAt, hd, hnb]
    · rw [if_neg hp] at h ⊢
      simp only at h
      have h2 := ih p h
      simp only
      cases hr : (freeAt p rest).2 with
      | nil => simp [succNotFreeAt]
      | cons nb r2 =>
        rw [hr] at h2
        simp [succNotFreeAt, hp, h2]

theorem mem_alloc_find (n : Nat) : ∀ bs : List MemBlock,
    (mem_alloc true n bs).1 =
      (bs.find? (fun b => b.is_available && decide (n ≤ b.block_size))).map (·.data_ptr) := by
  intro bs
  induction bs with
  | nil => rfl
  | cons current rest ih =>
    simp only [mem_alloc]
    by_cases hc : (current.is_available && decide (n ≤ current.block_size)) = true
    · rw [if_pos hc]
      have hf : List.find? (fun b => b.is_available && decide (n ≤ b.block_size)) (current :: rest)
          = some current := by
        simp only [List.find?]
        rw [hc]
      rw [hf]
      split <;> simp
    · rw [if_neg hc]
      have hf : List.find? (fun b => b.is_available && decide (n ≤ b.block_size)) (current :: rest)
          = List.find? (fun b => b.is_available && decide (n ≤ b.block_size)) rest := by
        simp only [List.find?]
        rw [Bool.of_not_eq_true hc]
      rw [hf]
      exact ih

theorem mem_alloc_no_fit : ∀ (bs : List MemBlock) (mOk : Bool) (n : Nat),
    (∀ x ∈ bs, ¬(x.is_available = true ∧ n ≤ x.block_size)) →
    mem_alloc mOk n bs = (none, bs) := by
  intro bs
  induction bs with
  | nil => intro mOk n _; rfl
  | cons current rest ih =>
    intro mOk n hskip
    have hx : ¬((current.is_available && decide (n ≤ current.block_size)) = true) := by
      simpa [Bool.and_eq_true, decide_eq_true_eq] using hskip current (by simp)
    simp only [mem_alloc]
    rw [if_neg hx, ih mOk n (fun y hy => hskip y (by simp [hy]))]

theorem mem_alloc_split :
    ∀ (l1 : List MemBlock) (cur : MemBlock) (rest : List MemBlock) (n : Nat),
    (∀ x ∈ l1, ¬(x.is_available = true ∧ n ≤ x.block_size)) →
    cur.is_available = true → n ≤ cur.block_size →
    (n < cur.block_size →
      mem_alloc true n (l1 ++ cur :: rest) =
        (some cur.data_ptr,
          l1 ++ { cur with block_size := n, is_available := false } ::
            { block_size := cur.block_size - n, is_available := true,
              data_ptr := cur.data_ptr + n } :: rest)) ∧
    (n = cur.block_size →
      mem_alloc true n (l1 ++ cur :: rest) =
        (some cur.data_ptr, l1 ++ { cur with is_available := false } :: rest)) := by
  intro l1
  induction l1 with
  | nil =>
    intro cur rest n _ havail hfit
    simp only [List.nil_append, mem_alloc]
    rw [if_pos (by simp [havail, hfit])]
    refine ⟨fun hlt => ?_, fun heq => ?_⟩
    · rw [if_pos hlt]; simp
    · rw [if_neg (by omega)]
  | cons x l1' ih =>
    intro cur rest n hskip havail hfit
    have hx : ¬((x.is_available && decide (n ≤ x.block_size)) = true) := by
      simpa [Bool.and_eq_true, decide_eq_true_eq] using hskip x (by simp)
    have ih' := ih cur rest n (fun y hy => hskip y (by simp [hy])) havail hfit
    simp only [List.cons_append, mem_alloc, List.append_eq]
    rw [if_neg hx]
    refine ⟨fun hlt => ?_, fun heq => ?_⟩
    · rw [ih'.1 hlt]
    · rw [ih'.2 heq]

theorem mem_alloc_meta_fail :
    ∀ (l1 : List MemBlock) (cur : MemBlock) (rest : List MemBlock) (n : Nat),
    (∀ x ∈ l1, ¬(x.is_available = true ∧ n ≤ x.block_size)) →
    cur.is_available = true → n < cur.block_size →
    mem_alloc false n (l1 ++ cur :: rest) = (none, l1 ++ cur :: rest) := by
  intro l1
  induction l1 with
  | nil =>
    intro cur rest n _ havail hlt
    simp only [List.nil_append, mem_alloc]
    rw [if_pos (by simp [havail]; omega), if_pos hlt, if_neg (by simp)]
  | cons x l1' ih =>
    intro cur rest n hskip havail hlt
    have hx : ¬((x.is_available && decide (n ≤ x.block_size)) = true) := by
      simpa [Bool.and_eq_true, decide_eq_true_eq] using hskip x (by simp)
    simp only [List.cons_append, mem_alloc, List.append_eq]
    rw [if_neg hx, ih cur rest n (fun y hy => hskip y (by simp [hy])) havail hlt]

theorem poolInv_runOps :
    ∀ (ops : List PoolOp) (bs : List MemBlock) (m : Nat → Nat) (base total : Nat),
    (∀ op ∈ ops, opSizePos op = true) → poolInv base total bs = true →
    poolInv base total (runOps ops (bs, m)).1 = true := by
  intro ops
  induction ops with
  | nil => intro bs m base total _ h; exact h
  | cons op ops ih =>
    intro bs m base total hpos h
    have hops : ∀ o ∈ ops, opSizePos o = true := fun o ho => hpos o (by simp [ho])
    cases op with
    | alloc mOk n =>
      have hn : 0 < n := by simpa [opSizePos] using hpos (PoolOp.alloc mOk n) (by simp)
      simp only [runOps]
      exact ih _ _ _ _ hops (coversFrom_alloc mOk n hn bs _ _ h)
    | free p =>
      simp only [runOps]
      exact ih _ _ _ _ hops (coversFrom_free p bs _ _ h)
    | resize mOk p n =>
      have hn : 0 < n := by simpa [opSizePos] using hpos (PoolOp.resize mOk p n) (by simp)
      simp only [runOps]
      exact ih _ _ _ _ hops (coversFrom_resize mOk p n hn bs m _ _ h)

/-! ### Claim theorems -/

/-- C1: for every pool state satisfying the partition invariant, the
descriptor list (walked from head) has strictly increasing `data_ptr`
values and its segments exactly tile `[base, base + total)` (sizes sum to
`total`); `mem_init` establishes the invariant, and every completed
`mem_alloc`, `mem_free` and `mem_resize` call — in particular every split
and every coalesce they perform — preserves it, hence any sequence of
such calls does. -/
theorem C1_partition_invariant (base total : Nat) (bs : List MemBlock)
    (hinv : poolInv base total bs = true) :
    List.Chain' (· < ·) (bs.map (·.data_ptr)) ∧
    (bs.map (·.block_size)).sum = total ∧
    (0 < total → poolInv base total (mem_init total base) = true) ∧
    (∀ (mOk : Bool) (n : Nat), 0 < n → poolInv base total (mem_alloc mOk n bs).2 = true) ∧
    (∀ pOpt : Option Nat, poolInv base total (mem_free pOpt bs).2 = true) ∧
    (∀ (mOk : Bool) (pOpt : Option Nat) (n : Nat) (m : Nat → Nat), 0 < n →
      poolInv base total (mem_resize mOk pOpt n bs m).blocks = true) ∧
    (∀ (ops : List PoolOp) (m : Nat → Nat), (∀ op ∈ ops, opSizePos op = true) →
      poolInv base total (runOps ops (bs, m)).1 = true) := by
  refine ⟨?_, ?_, ?_, ?_, ?_, ?_, ?_⟩
  · exact coversFrom_chain bs base (base + total) hinv
  · have := coversFrom_sum bs base (base + total) hinv
    omega
  · intro ht
    simp [poolInv, mem_init, coversFrom, ht]
  · intro mOk n hn
    exact coversFrom_alloc mOk n hn bs _ _ hinv
  · intro pOpt
    exact coversFrom_free pOpt bs _ _ hinv
  · intro mOk pOpt n m hn
    exact coversFrom_resize mOk pOpt n hn bs m _ _ hinv
  · intro ops m hops
    exact poolInv_runOps ops bs m base total hops hinv

/-- Witness for C1 on the concrete pool state `[used 30 @0, free 70 @30]`
over the arena `[0, 100)`. -/
theorem C1_partition_invariant_witness :
    List.Chain' (· < ·) (([⟨30, false, 0⟩, ⟨70, true, 30⟩] : List MemBlock).map (·.data_ptr)) ∧
    poolInv 0 100 (mem_alloc true 20 [⟨30, false, 0⟩, ⟨70, true, 30⟩]).2 = true ∧
    poolInv 0 100 (mem_free (some 0) [⟨30, false, 0⟩, ⟨70, true, 30⟩]).2 = true ∧
    poolInv 0 100
      (mem_resize true (some 0) 50 [⟨30, false, 0⟩, ⟨70, true, 30⟩] (fun a => a)).blocks
      = true := by
  have h := C1_partition_invariant 0 100 [⟨30, false, 0⟩, ⟨70, true, 30⟩] (by decide)
  exact ⟨h.1, h.2.2.2.1 true 20 (by decide), h.2.2.2.2.1 (some 0),
    h.2.2.2.2.2.1 true (some 0) 50 (fun a => a) (by decide)⟩

/-- C2 counterexample: the claim "immediately after every completed free
no two adjacent descriptors are both available" is false.  From
`mem_init 100`, after `alloc 30`, `alloc 70`, `free @0`, the call
`free @30` completes successfully (it is a genuine free, not a warning)
and leaves the two adjacent descriptors `[free 30 @0, free 70 @30]` both
available: the freed block's predecessor was already free and forward-only
coalescing never merges it. -/
theorem C2_adjacent_free_counterexample :
    (mem_free (some 30)
        (mem_free (some 0)
          (mem_alloc true 70 (mem_alloc true 30 (mem_init 100 0)).2).2).2).1
      = FreeResult.freedOk ∧
    noAdjFree
      (mem_free (some 30)
        (mem_free (some 0)
          (mem_alloc true 70 (mem_alloc true 30 (mem_init 100 0)).2).2).2).2 = false := by
  decide

/-- C2 (amended): immediately after a successful `mem_free(p)`, the freed
(possibly forward-coalesced) descriptor is never followed by an available
descriptor; the claimed global no-adjacent-free invariant does not hold
because the freed block's predecessor may itself be available. -/
theorem C2_forward_coalesce_successor (bs : List MemBlock) (p : Nat)
    (h : (mem_free (some p) bs).1 = FreeResult.freedOk) :
    succNotFreeAt p (mem_free (some p) bs).2 = true :=
  freeAt_succNotFree bs p h

/-- Witness for the amended C2: freeing the in-use block at address 0. -/
theorem C2_forward_coalesce_successor_witness :
    succNotFreeAt 0 (mem_free (some 0) [⟨30, false, 0⟩, ⟨70, false, 30⟩]).2 = true :=
  C2_forward_coalesce_successor [⟨30, false, 0⟩, ⟨70, false, 30⟩] 0 (by decide)

/-- C3: `mem_alloc n` (with metadata allocation available) returns the
`data_ptr` of the FIRST descriptor in list order that is available with
size at least `n` (`List.find?` of exactly the C loop's test), and `none`
when no such descriptor exists.  Being a pure function of the list state,
the result is the same on every run with the same state. -/
theorem C3_first_fit (n : Nat) (bs : List MemBlock) (hn : 0 < n) :
    (mem_alloc true n bs).1 =
      (bs.find? (fun b => b.is_available && decide (n ≤ b.block_size))).map (·.data_ptr) :=
  mem_alloc_find n bs

/-- Witness for C3: the first large-enough free block (at address 50) is
chosen, skipping a too-small free block and an in-use block. -/
theorem C3_first_fit_witness :
    (mem_alloc true 40 [⟨20, true, 0⟩, ⟨30, false, 20⟩, ⟨50, true, 50⟩]).1 =
      (([⟨20, true, 0⟩, ⟨30, false, 20⟩, ⟨50, true, 50⟩] : List MemBlock).find?
        (fun b => b.is_available && decide (40 ≤ b.block_size))).map (·.data_ptr) :=
  C3_first_fit 40 [⟨20, true, 0⟩, ⟨30, false, 20⟩, ⟨50, true, 50⟩] (by decide)

/-- C4: when `mem_alloc n` finds its first-fit descriptor `cur` (after a
prefix `l1` of non-matching descriptors): if `n < cur.block_size` the
descriptor is shrunk to exactly `n` and marked in-use and a new available
descriptor of size `cur.block_size - n` with `data_ptr` advanced by `n`
is inserted immediately after it; if `n = cur.block_size` it is merely
marked in-use and no descriptor is created. -/
theorem C4_split_exact (l1 : List MemBlock) (cur : MemBlock) (rest : List MemBlock) (n : Nat)
    (hskip : ∀ x ∈ l1, ¬(x.is_available = true ∧ n ≤ x.block_size))
    (havail : cur.is_available = true) (hfit : n ≤ cur.block_size) :
    (n < cur.block_size →
      mem_alloc true n (l1 ++ cur :: rest) =
        (some cur.data_ptr,
          l1 ++ { cur with block_size := n, is_available := false } ::
            { block_size := cur.block_size - n, is_available := true,
              data_ptr := cur.data_ptr + n } :: rest)) ∧
    (n = cur.block_size →
      mem_alloc true n (l1 ++ cur :: rest) =
        (some cur.data_ptr, l1 ++ { cur with is_available := false } :: rest)) :=
  mem_alloc_split l1 cur rest n hskip havail hfit

/-- Witness for C4: a strict split (30 out of 100) and an exact fit
(100 out of 100), both behind a non-matching in-use block. -/
theorem C4_split_exact_witness :
    mem_alloc true 30 [⟨20, false, 0⟩, ⟨100, true, 20⟩] =
      (some 20, [⟨20, false, 0⟩, ⟨30, false, 20⟩, ⟨70, true, 50⟩]) ∧
    mem_alloc true 100 [⟨20, false, 0⟩, ⟨100, true, 20⟩] =
      (some 20, [⟨20, false, 0⟩, ⟨100, false, 20⟩]) := by
  constructor
  · exact (C4_split_exact [⟨20, false, 0⟩] ⟨100, true, 20⟩ [] 30
      (by decide) rfl (by decide)).1 (by decide)
  · exact (C4_split_exact [⟨20, false, 0⟩] ⟨100, true, 20⟩ [] 100
      (by decide) rfl (by decide)).2 rfl

/-- C5: `mem_free p` on the in-use descriptor `cur` with `data_ptr = p`
(first match after a prefix `l1` with other addresses) marks it available
and coalesces forward: the maximal run `frees` of available descriptors
following it is absorbed — the result keeps a single free descriptor at
`p` whose size is `cur.block_size` plus the sum of the absorbed sizes,
with the absorbed descriptors destroyed and no residual fragments, and
stops at the first non-available descriptor. -/
theorem C5_free_coalesce (l1 frees rest2 : List MemBlock) (cur : MemBlock) (p : Nat)
    (hskip : ∀ x ∈ l1, x.data_ptr ≠ p) (hp : cur.data_ptr = p)
    (hused : cur.is_available = false)
    (hfrees : ∀ x ∈ frees, x.is_available = true)
    (hstop : ∀ nb, rest2.head? = some nb → nb.is_available = false) :
    mem_free (some p) (l1 ++ cur :: (frees ++ rest2)) =
      (FreeResult.freedOk,
        l1 ++ { cur with
                is_available := true
                block_size := cur.block_size + (frees.map (·.block_size)).sum } :: rest2) := by
  have h1 := freeAt_found l1 cur (frees ++ rest2) p hskip hp hused
  have h2 := coalesce_spec frees rest2 { cur with is_available := true } hfrees hstop
  show freeAt p (l1 ++ cur :: (frees ++ rest2)) = _
  rw [h1, h2]

/-- Witness for C5: freeing the in-use 30-byte block at address 0 absorbs
the two following free blocks (20 and 50 bytes) into one 100-byte free
descriptor and stops at the in-use block at address 100. -/
theorem C5_free_coalesce_witness :
    mem_free (some 0)
        [⟨30, false, 0⟩, ⟨20, true, 30⟩, ⟨50, true, 50⟩, ⟨10, false, 100⟩] =
      (FreeResult.freedOk, [⟨100, true, 0⟩, ⟨10, false, 100⟩]) := by
  have h := C5_free_coalesce [] [⟨20, true, 30⟩, ⟨50, true, 50⟩] [⟨10, false, 100⟩]
    ⟨30, false, 0⟩ 0 (by simp) rfl rfl (by decide) (by simp)
  simpa using h

/-- C6: `mem_free` error handling is inert.  Freeing `NULL` warns and
changes nothing; freeing an address matching no descriptor warns and
changes nothing; freeing an address whose (first-matching) descriptor is
already available warns and changes nothing; and after a successful free,
freeing the same address again warns (double free) with the list
unchanged, and the partition invariant still holds after the first
free. -/
theorem C6_free_errors (base total p : Nat) (bs l1 rest : List MemBlock) (cur : MemBlock) :
    (mem_free none bs = (FreeResult.warnNull, bs)) ∧
    ((∀ x ∈ bs, x.data_ptr ≠ p) → mem_free (some p) bs = (FreeResult.warnNotFound, bs)) ∧
    ((∀ x ∈ l1, x.data_ptr ≠ p) → cur.data_ptr = p → cur.is_available = true →
      mem_free (some p) (l1 ++ cur :: rest) = (FreeResult.warnAlreadyFree, l1 ++ cur :: rest)) ∧
    ((mem_free (some p) bs).1 = FreeResult.freedOk →
      mem_free (some p) (mem_free (some p) bs).2 =
        (FreeResult.warnAlreadyFree, (mem_free (some p) bs).2) ∧
      (poolInv base total bs = true → poolInv base total (mem_free (some p) bs).2 = true)) := by
  refine ⟨rfl, ?_, ?_, ?_⟩
  · intro h
    exact freeAt_notFound bs p h
  · intro h1 h2 h3
    exact freeAt_alreadyFree l1 cur rest p h1 h2 h3
  · intro hok
    have hok2 : (freeAt p bs).1 = FreeResult.freedOk := hok
    refine ⟨?_, ?_⟩
    · exact freeAt_double bs p (freeAt p bs).2 (by rw [← hok2])
    · intro hinv
      exact coversFrom_freeAt bs p _ _ hinv

/-- Witness for C6: null free, foreign-pointer free, free of an
already-free block, and a double free on `[used 30 @0, used 70 @30]`. -/
theorem C6_free_errors_witness :
    (mem_free none [⟨30, false, 0⟩, ⟨70, false, 30⟩] =
      (FreeResult.warnNull, [⟨30, false, 0⟩, ⟨70, false, 30⟩])) ∧
    (mem_free (some 7) [⟨30, false, 0⟩, ⟨70, false, 30⟩] =
      (FreeResult.warnNotFound, [⟨30, false, 0⟩, ⟨70, false, 30⟩])) ∧
    (mem_free (some 30) [⟨30, false, 0⟩, ⟨70, true, 30⟩] =
      (FreeResult.warnAlreadyFree, [⟨30, false, 0⟩, ⟨70, true, 30⟩])) ∧
    (mem_free (some 0) (mem_free (some 0) [⟨30, false, 0⟩, ⟨70, false, 30⟩]).2 =
      (FreeResult.warnAlreadyFree, (mem_free (some 0) [⟨30, false, 0⟩, ⟨70, false, 30⟩]).2)) ∧
    poolInv 0 100 (mem_free (some 0) [⟨30, false, 0⟩, ⟨70, false, 30⟩]).2 = true := by
  refine ⟨(C6_free_errors 0 100 7 [⟨30, false, 0⟩, ⟨70, false, 30⟩] [] []
      ⟨30, false, 0⟩).1, ?_, ?_, ?_, ?_⟩
  · exact (C6_free_errors 0 100 7 [⟨30, false, 0⟩, ⟨70, false, 30⟩] [] []
      ⟨30, false, 0⟩).2.1 (by decide)
  · exact (C6_free_errors 0 100 30 [⟨30, false, 0⟩, ⟨70, true, 30⟩] [⟨30, false, 0⟩] []
      ⟨70, true, 30⟩).2.2.1 (by decide) rfl rfl
  · exact ((C6_free_errors 0 100 0 [⟨30, false, 0⟩, ⟨70, false, 30⟩] [] []
      ⟨30, false, 0⟩).2.2.2 (by decide)).1
  · exact ((C6_free_errors 0 100 0 [⟨30, false, 0⟩, ⟨70, false, 30⟩] [] []
      ⟨30, false, 0⟩).2.2.2 (by decide)).2 (by decide)

/-- C7: `mem_alloc` failure is atomic.  If no descriptor is both
available and large enough, the call returns `none` with the list
unchanged; and when a split is needed at the first fit but the metadata
allocation fails, the found descriptor (and the whole list) is left
completely unmodified and the call fails with exactly the same result
`(none, unchanged list)` as the no-fit case. -/
theorem C7_alloc_atomic (bs l1 rest : List MemBlock) (cur : MemBlock) (mOk : Bool) (n : Nat) :
    ((∀ x ∈ bs, ¬(x.is_available = true ∧ n ≤ x.block_size)) →
      mem_alloc mOk n bs = (none, bs)) ∧
    ((∀ x ∈ l1, ¬(x.is_available = true ∧ n ≤ x.block_size)) → cur.is_available = true →
      n < cur.block_size →
      mem_alloc false n (l1 ++ cur :: rest) = (none, l1 ++ cur :: rest)) :=
  ⟨mem_alloc_no_fit bs mOk n, mem_alloc_meta_fail l1 cur rest n⟩

/-- Witness for C7: exhaustion (request 500 of a pool with at most 70
free) and metadata failure at a split of the free 70-byte block. -/
theorem C7_alloc_atomic_witness :
    mem_alloc true 500 [⟨30, false, 0⟩, ⟨70, true, 30⟩] =
      (none, [⟨30, false, 0⟩, ⟨70, true, 30⟩]) ∧
    mem_alloc false 40 [⟨30, false, 0⟩, ⟨70, true, 30⟩] =
      (none, [⟨30, false, 0⟩, ⟨70, true, 30⟩]) := by
  constructor
  · exact (C7_alloc_atomic [⟨30, false, 0⟩, ⟨70, true, 30⟩] [] [] ⟨30, false, 0⟩
      true 500).1 (by decide)
  · exact (C7_alloc_atomic [] [⟨30, false, 0⟩] [] ⟨70, true, 30⟩ false 40).2
      (by decide) rfl (by decide)

/-- C8: `mem_resize` on a found but undersized block
(`block.block_size < n`) performs alloc-copy-free.  If the fresh
allocation yields `np`, the call returns `np`, copies exactly the OLD
block length (`block.block_size`, not `n`) from `p` to `np` — so the
first `block.block_size` bytes at `np` equal the bytes previously at `p`
and no byte outside `[np, np + block.block_size)` changes — and then
frees the old block.  If the fresh allocation fails, the call returns
`none` and the descriptor list and memory are completely unchanged (the
old block stays valid). -/
theorem C8_resize_grow (mOk : Bool) (p n : Nat) (bs : List MemBlock) (m : Nat → Nat)
    (block : MemBlock) (hfind : findBlock p bs = some block)
    (hsz : block.block_size < n) :
    (∀ np, (mem_alloc mOk n bs).1 = some np →
      (mem_resize mOk (some p) n bs m).ret = some np ∧
      (∀ i, i < block.block_size →
        (mem_resize mOk (some p) n bs m).mem (np + i) = m (p + i)) ∧
      (∀ a, a < np ∨ np + block.block_size ≤ a →
        (mem_resize mOk (some p) n bs m).mem a = m a) ∧
      (mem_resize mOk (some p) n bs m).blocks =
        (mem_free (some p) (mem_alloc mOk n bs).2).2 ∧
      (mem_resize mOk (some p) n bs m).warned = false) ∧
    ((mem_alloc mOk n bs).1 = none →
      (mem_resize mOk (some p) n bs m).ret = none ∧
      (mem_resize mOk (some p) n bs m).blocks = bs ∧
      (mem_resize mOk (some p) n bs m).mem = m ∧
      (mem_resize mOk (some p) n bs m).warned = false) := by
  constructor
  · intro np hnp
    simp only [mem_resize, hfind, hnp]
    rw [if_neg (by omega)]
    simp only [hnp]
    refine ⟨trivial, ?_, ?_, trivial, trivial⟩
    · intro i hi
      simp only [memcpy]
      rw [if_pos ⟨by omega, by omega⟩]
      congr 1
      omega
    · intro a ha
      simp only [memcpy]
      rw [if_neg (by omega)]
  · intro hnone
    simp only [mem_resize, hfind]
    rw [if_neg (by omega)]
    simp only [hnone]
    exact ⟨trivial, mem_alloc_none_eq mOk n bs hnone, trivial, trivial⟩

/-- Witness for C8: growing the in-use 30-byte block at address 0 to 50
bytes inside `[used 30 @0, free 70 @30]` with memory `m a = a`, and the
failing case where metadata allocation is unavailable. -/
theorem C8_resize_grow_witness :
    (mem_resize true (some 0) 50 [⟨30, false, 0⟩, ⟨70, true, 30⟩] (fun a => a)).ret
      = some 30 ∧
    (mem_resize true (some 0) 50 [⟨30, false, 0⟩, ⟨70, true, 30⟩] (fun a => a)).mem (30 + 7)
      = (fun a => a) (0 + 7) ∧
    (mem_resize true (some 0) 50 [⟨30, false, 0⟩, ⟨70, true, 30⟩] (fun a => a)).mem 95
      = (fun a => a) 95 ∧
    (mem_resize false (some 0) 50 [⟨30, false, 0⟩, ⟨70, true, 30⟩] (fun a => a)).ret
      = none ∧
    (mem_resize false (some 0) 50 [⟨30, false, 0⟩, ⟨70, true, 30⟩] (fun a => a)).blocks
      = [⟨30, false, 0⟩, ⟨70, true, 30⟩] := by
  have hok := (C8_resize_grow true 0 50 [⟨30, false, 0⟩, ⟨70, true, 30⟩] (fun a => a)
    ⟨30, false, 0⟩ rfl (by decide)).1 30 (by decide)
  have hfail := (C8_resize_grow false 0 50 [⟨30, false, 0⟩, ⟨70, true, 30⟩] (fun a => a)
    ⟨30, false, 0⟩ rfl (by decide)).2 (by decide)
  exact ⟨hok.1, hok.2.1 7 (by decide), hok.2.2.1 95 (by decide),
    hfail.1, hfail.2.1⟩

/-- C9: `mem_resize` with a `NULL` pointer returns exactly what
`mem_alloc` returns, with the same list change and no warning; with a
found block already of size `≥ n` it returns the same address with no
data movement and no descriptor change; and with an address matching no
descriptor it warns and returns `none` with everything unchanged. -/
theorem C9_resize_cases (mOk : Bool) (p n : Nat) (bs : List MemBlock) (m : Nat → Nat)
    (block : MemBlock) :
    (mem_resize mOk none n bs m =
      ⟨(mem_alloc mOk n bs).1, (mem_alloc mOk n bs).2, m, false⟩) ∧
    (findBlock p bs = some block → n ≤ block.block_size →
      mem_resize mOk (some p) n bs m = ⟨some p, bs, m, false⟩) ∧
    (findBlock p bs = none →
      mem_resize mOk (some p) n bs m = ⟨none, bs, m, true⟩) := by
  refine ⟨rfl, ?_, ?_⟩
  · intro hfind hsz
    simp only [mem_resize, hfind]
    rw [if_pos hsz]
  · intro hfind
    simp only [mem_resize, hfind]

/-- Witness for C9 on `[used 30 @0, free 70 @30]`: null-pointer resize
equals alloc, an in-place resize to a smaller size returns the same
address unchanged, and an unknown address warns and fails. -/
theorem C9_resize_cases_witness :
    (mem_resize true none 20 [⟨30, false, 0⟩, ⟨70, true, 30⟩] (fun a => a) =
      ⟨(mem_alloc true 20 [⟨30, false, 0⟩, ⟨70, true, 30⟩]).1,
       (mem_alloc true 20 [⟨30, false, 0⟩, ⟨70, true, 30⟩]).2, (fun a => a), false⟩) ∧
    (mem_resize true (some 0) 10 [⟨30, false, 0⟩, ⟨70, true, 30⟩] (fun a => a) =
      ⟨some 0, [⟨30, false, 0⟩, ⟨70, true, 30⟩], (fun a => a), false⟩) ∧
    (mem_resize true (some 11) 10 [⟨30, false, 0⟩, ⟨70, true, 30⟩] (fun a => a) =
      ⟨none, [⟨30, false, 0⟩, ⟨70, true, 30⟩], (fun a => a), true⟩) := by
  have h := C9_resize_cases true 11 10 [⟨30, false, 0⟩, ⟨70, true, 30⟩] (fun a => a)
    ⟨30, false, 0⟩
  have h0 := C9_resize_cases true 0 10 [⟨30, false, 0⟩, ⟨70, true, 30⟩] (fun a => a)
    ⟨30, false, 0⟩
  have h20 := C9_resize_cases true 0 20 [⟨30, false, 0⟩, ⟨70, true, 30⟩] (fun a => a)
    ⟨30, false, 0⟩
  exact ⟨h20.1, h0.2.1 rfl (by decide), h.2.2 rfl⟩

/-- C10: `mem_resize` never inspects the availability flag of the matched
descriptor: resizing an address whose (first-matching) descriptor is
already available — a freed address, violating the liveness precondition
— with `n` at most its size returns that address as an apparent success,
with no warning, no list change and no memory change. -/
theorem C10_resize_ignores_availability (mOk : Bool) (p n : Nat) (bs : List MemBlock)
    (m : Nat → Nat) (block : MemBlock) (hfind : findBlock p bs = some block)
    (hfree : block.is_available = true) (hsz : n ≤ block.block_size) :
    (mem_resize mOk (some p) n bs m).ret = some p ∧
    (mem_resize mOk (some p) n bs m).blocks = bs ∧
    (mem_resize mOk (some p) n bs m).mem = m ∧
    (mem_resize mOk (some p) n bs m).warned = false := by
  simp only [mem_resize, hfind]
  rw [if_pos hsz]
  exact ⟨rfl, rfl, rfl, rfl⟩

/-- Witness for C10: resizing the already-free block at address 30 to 10
bytes "succeeds" silently. -/
theorem C10_resize_ignores_availability_witness :
    (mem_resize true (some 30) 10 [⟨30, false, 0⟩, ⟨70, true, 30⟩] (fun a => a)).ret
      = some 30 ∧
    (mem_resize true (some 30) 10 [⟨30, false, 0⟩, ⟨70, true, 30⟩] (fun a => a)).blocks
      = [⟨30, false, 0⟩, ⟨70, true, 30⟩] ∧
    (mem_resize true (some 30) 10 [⟨30, false, 0⟩, ⟨70, true, 30⟩] (fun a => a)).warned
      = false :=
  have h := C10_resize_ignores_availability true 30 10 [⟨30, false, 0⟩, ⟨70, true, 30⟩]
    (fun a => a) ⟨70, true, 30⟩ rfl rfl (by decide)
  ⟨h.1, h.2.1, h.2.2.2⟩
